import Mathlib

/-!
Verification of the reading-plan tracker (src/reading.c).

The plan text and the status-file content are modelled as lists of
characters; the C stdio stream is modelled by passing the not yet
consumed suffix of the input explicitly.  An ungetc of the character
just read corresponds to returning the suffix that still starts with
that character; reaching end of file corresponds to the empty list.
Functions whose C loops are not structurally recursive are written with
an explicit fuel argument that is always initialised with more fuel
than the input length, so that every definition is executable and
kernel-reducible; derived equation lemmas below recover the natural
recursion equations.
-/

namespace Reading

/-- C isblank in the default locale: space or horizontal tab. -/
def isblank (c : Char) : Bool := c == ' ' || c == '\t'

/-- C isspace in the default locale. -/
def isspace (c : Char) : Bool :=
  c == ' ' || c == '\t' || c == '\n' || c == '\x0b' || c == '\x0c' || c == '\r'

/-- The inner loop of plan_file_next_entry: consume characters up to and
including the next newline; none means EOF was reached first (the C code
returns 1 in that case). -/
def skipLine : List Char → Option (List Char)
  | [] => none
  | c :: rest => if c = '\n' then some rest else skipLine rest

/-- Fuel-indexed body of plan_file_next_entry. -/
def pfneAux : Nat → List Char → Option (List Char)
  | 0, _ => none
  | fuel + 1, s =>
    match skipLine s with
    | none => none
    | some [] => none
    | some (c :: rest) =>
      if isblank c then pfneAux fuel rest else some (c :: rest)

/-- plan_file_next_entry from src/reading.c: skip lines until one starts
with a character that is not horizontal whitespace; none models the
nonzero no-more-entries return, some r models returning 0 with the
stream positioned at the first character of the next title line. -/
def plan_file_next_entry (s : List Char) : Option (List Char) :=
  pfneAux (s.length + 1) s

/-- Fuel-indexed body of the while loop of plan_count_entries. -/
def countLoopAux : Nat → List Char → Nat
  | 0, _ => 0
  | fuel + 1, s =>
    match plan_file_next_entry s with
    | none => 0
    | some r => 1 + countLoopAux fuel r

/-- The while loop of plan_count_entries: number of successful
plan_file_next_entry calls starting from stream position s. -/
def countLoop (s : List Char) : Nat := countLoopAux (s.length + 1) s

/-- plan_count_entries from src/reading.c, applied to the plan text. -/
def plan_count_entries (text : List Char) : Nat :=
  match text with
  | [] => 0
  | c :: rest => (if isblank c then 0 else 1) + countLoop rest

/-- The line-printing loop of plan_file_print_entry: copy characters up
to the next newline to the output; at EOF a newline is forced and the
no-more-entries result (none) is produced, otherwise the remainder after
the newline is returned. -/
def printLine : List Char → List Char × Option (List Char)
  | [] => (['\n'], none)
  | c :: rest =>
    if c = '\n' then (['\n'], some rest)
    else
      let p := printLine rest
      (c :: p.1, p.2)

/-- The inner whitespace-skipping loop of plan_file_print_entry. -/
def skipBlanks : List Char → List Char
  | [] => []
  | c :: rest => if isblank c then skipBlanks rest else c :: rest

/-- Fuel-indexed body of the description-line loop of
plan_file_print_entry. -/
def descLoopAux : Nat → List Char → List Char × Option (List Char)
  | 0, _ => ([], none)
  | fuel + 1, s =>
    match s with
    | [] => ([], none)
    | c :: rest =>
      if isblank c then
        match printLine (skipBlanks rest) with
        | (out, none) => ('\t' :: out, none)
        | (out, some rest3) =>
          let p := descLoopAux fuel rest3
          ('\t' :: (out ++ p.1), p.2)
      else ([], some (c :: rest))

/-- The description-line loop of plan_file_print_entry: for every line
starting with horizontal whitespace, collapse the leading run of
whitespace to one tab and copy the rest of the line. -/
def descLoop (s : List Char) : List Char × Option (List Char) :=
  descLoopAux (s.length + 1) s

/-- plan_file_print_entry from src/reading.c: print the title line, then
the re-indented description lines.  The first component is the text
written to standard output, the second is none when the no-more-entries
result 1 is returned (EOF) and some r when the stream is left at r. -/
def plan_file_print_entry (s : List Char) : List Char × Option (List Char) :=
  match printLine s with
  | (out, none) => (out, none)
  | (out, some rest) =>
    let p := descLoop rest
    (out ++ p.1, p.2)

/-- The skip loop of show: n calls of plan_file_next_entry; a failing
call leaves the stream at EOF, modelled by the empty list. -/
def skipEntries : Nat → List Char → List Char
  | 0, s => s
  | n + 1, s =>
    match plan_file_next_entry s with
    | none => skipEntries n []
    | some r => skipEntries n r

/-- The print loop of show: up to n calls of plan_file_print_entry,
stopping as soon as one reports no more entries; result is the combined
output. -/
def renderEntries : Nat → List Char → List Char
  | 0, _ => []
  | n + 1, s =>
    match plan_file_print_entry s with
    | (out, none) => out
    | (out, some r) => out ++ renderEntries n r

/-- Number of plan_file_print_entry calls made by the print loop of
show. -/
def renderCalls : Nat → List Char → Nat
  | 0, _ => 0
  | n + 1, s =>
    match plan_file_print_entry s with
    | (_, none) => 1
    | (_, some r) => 1 + renderCalls n r

/-- The stream position after the classifying getc/ungetc at the start
of show: a leading horizontal-whitespace byte is consumed, any other
(or EOF) is pushed back. -/
def show_start (text : List Char) : List Char :=
  match text with
  | [] => []
  | c :: rest => if isblank c then rest else c :: rest

/-- The trip count of the skip loop of show: the cursor value, minus one
when the first byte of the text is not horizontal whitespace (the
decrement of entry in show), converted to the number of iterations of a
C for loop with an int bound. -/
def show_skip_calls (text : List Char) (entry : Int) : Nat :=
  match text with
  | [] => (entry - 1).toNat
  | c :: _ => if isblank c then entry.toNat else (entry - 1).toNat

/-- The output of show from src/reading.c, given the plan text, the
cursor value read from the status file, and the num argument. -/
def show_output (text : List Char) (entry num : Int) : List Char :=
  renderEntries num.toNat (skipEntries (show_skip_calls text entry) (show_start text))

/-- The clamp macro from src/reading.c. -/
def clamp (low val high : Int) : Int :=
  if val < low then low else if val > high then high else val

/-- The digit-consuming core of strtol base 10: consume the maximal run
of decimal digits, accumulating the value; the second component is the
end pointer. -/
def strtolDigits : List Char → Int → Int × List Char
  | [], acc => (acc, [])
  | c :: rest, acc =>
    if c.isDigit then strtolDigits rest (10 * acc + ((c.toNat : Int) - 48))
    else (acc, c :: rest)

/-- Model of C strtol(str, end, 10): skip leading whitespace, accept an
optional sign and a nonempty digit run; if no digits are found the end
pointer is the original string and the value is 0.  The long arithmetic
is modelled exactly; the callers only compare the value against the int
bounds, which subsumes the ERANGE clamping of strtol. -/
def strtol10 (s : List Char) : Int × List Char :=
  match s.dropWhile isspace with
  | [] => (0, s)
  | c :: r =>
    if c = '-' then
      match r with
      | [] => (0, s)
      | d :: _ =>
        if d.isDigit then
          let p := strtolDigits r 0
          (-p.1, p.2)
        else (0, s)
    else if c = '+' then
      match r with
      | [] => (0, s)
      | d :: _ => if d.isDigit then strtolDigits r 0 else (0, s)
    else if c.isDigit then strtolDigits (c :: r) 0
    else (0, s)

/-- The errno outcomes of parse_int. -/
inductive ParseErr where
  | invalid : ParseErr
  | range : ParseErr
deriving DecidableEq

/-- INT_MIN for the 32-bit int of the target platform. -/
def int_min : Int := -2147483648

/-- INT_MAX for the 32-bit int of the target platform. -/
def int_max : Int := 2147483647

/-- parse_int from src/reading.c: strtol base 10, then reject an empty
string or a nonempty end pointer with EINVAL, and a value outside the
int range with ERANGE. -/
def parse_int (str : List Char) : Except ParseErr Int :=
  let p := strtol10 str
  if str = [] then .error .invalid
  else if p.2 ≠ [] then .error .invalid
  else if p.1 < int_min ∨ p.1 > int_max then .error .range
  else .ok p.1

/-- The two malformed-status-file failures of plan_get_entry; both are
reported as a corrupt status file. -/
inductive StatusErr where
  | tooLong : StatusErr
  | badNumber : StatusErr
deriving DecidableEq

/-- The C string held in buf after the fread of plan_get_entry: the
content up to the first NUL byte (buf is NUL-terminated after the read
and the string functions stop at the first NUL). -/
def status_cstr (content : List Char) : List Char :=
  content.takeWhile (fun c => c ≠ '\x00')

/-- plan_get_entry from src/reading.c, as a function of the status-file
content.  fread asks for sizeof buf - 1 = 31 bytes; the stream is only
at EOF afterwards when the content is at most 30 bytes, so any longer
content is rejected as too long.  The buffer is then NUL-terminated and
handed to parse_int; any errno from parse_int is the malformed-number
failure. -/
def plan_get_entry (content : List Char) : Except StatusErr Int :=
  if 31 ≤ content.length then .error .tooLong
  else
    match parse_int (status_cstr content) with
    | .error _ => .error .badNumber
    | .ok v => .ok v

/-- Fuel-indexed digit expansion used to model fprintf with format %d. -/
def natDigitsAux : Nat → Nat → List Char
  | 0, _ => []
  | fuel + 1, n =>
    if n < 10 then [Nat.digitChar n]
    else natDigitsAux fuel (n / 10) ++ [Nat.digitChar (n % 10)]

/-- The decimal digits of n, most significant first. -/
def natDigits (n : Nat) : List Char := natDigitsAux (n + 1) n

/-- Model of fprintf(status, "%d", entry): the base-10 decimal
representation, a leading minus sign for negative values, no padding,
no surrounding whitespace, no trailing newline. -/
def int_to_dec (v : Int) : List Char :=
  if v < 0 then '-' :: natDigits (-v).toNat else natDigits v.toNat

/-- plan_set_entry from src/reading.c, as the new status-file content. -/
def plan_set_entry (entry : Int) : List Char := int_to_dec entry

/-- The cursor value written by next. -/
def next_value (text : List Char) (entry : Int) : Int :=
  clamp 1 (entry + 1) ((plan_count_entries text : Int) + 1)

/-- The cursor value written by previous. -/
def previous_value (text : List Char) (entry : Int) : Int :=
  clamp 1 (entry - 1) ((plan_count_entries text : Int) + 1)

/-- The cursor value written by set. -/
def set_value (text : List Char) (target : Int) : Int :=
  clamp 1 target ((plan_count_entries text : Int) + 1)

/-- The two artifacts backing one plan: the plan text and the content of
the status file. -/
structure PlanState where
  text : List Char
  status : List Char
deriving DecidableEq

/-- The next subcommand: count the entries, read the cursor (an error
exits the process before anything is written), clamp cursor + 1 and
write it back. -/
def next_op (st : PlanState) : Except StatusErr PlanState :=
  match plan_get_entry st.status with
  | .error e => .error e
  | .ok entry => .ok ⟨st.text, plan_set_entry (next_value st.text entry)⟩

/-- The previous subcommand, analogous to next_op. -/
def previous_op (st : PlanState) : Except StatusErr PlanState :=
  match plan_get_entry st.status with
  | .error e => .error e
  | .ok entry => .ok ⟨st.text, plan_set_entry (previous_value st.text entry)⟩

/-- The set subcommand: it counts the entries and writes the clamped
target; the existing status-file content is never read. -/
def set_op (st : PlanState) (target : Int) : PlanState :=
  ⟨st.text, plan_set_entry (set_value st.text target)⟩

/-- The show subcommand: read the cursor (an error exits the process
before any output), then produce the output of show; the status file is
never written. -/
def show_op (st : PlanState) (num : Int) : Except StatusErr (List Char × PlanState) :=
  match plan_get_entry st.status with
  | .error e => .error e
  | .ok entry => .ok (show_output st.text entry num, st)

/-- Spec-side notion used by the claim about reading the cursor: the
content is precisely one base-10 integer, an optional minus sign
followed by one or more decimal digits and nothing else. -/
def spec_clean_int (s : List Char) : Bool :=
  let u := match s with
    | '-' :: r => r
    | _ => s
  (!u.isEmpty) && u.all Char.isDigit

/-- The value of a digit run, most significant digit first. -/
def digitsVal (ds : List Char) : Int :=
  ds.foldl (fun a c => 10 * a + ((c.toNat : Int) - 48)) 0

/-- Spec-side characterisation of the strings the status-file parser
accepts: optional leading whitespace, an optional sign, then one or
more decimal digits and nothing else. -/
def spec_accepted_content (s : List Char) : Bool :=
  match s.dropWhile isspace with
  | [] => false
  | c :: r =>
    if c = '-' ∨ c = '+' then (!r.isEmpty) && r.all Char.isDigit
    else (c :: r).all Char.isDigit

/-- The integer value of an accepted status string. -/
def spec_content_value (s : List Char) : Int :=
  match s.dropWhile isspace with
  | [] => 0
  | c :: r =>
    if c = '-' then -(digitsVal r)
    else if c = '+' then digitsVal r
    else digitsVal (c :: r)

deriving instance DecidableEq for Except

/-! Recursion equations for the fuel-indexed definitions. -/

theorem skipLine_length : ∀ {s r : List Char}, skipLine s = some r → r.length < s.length := by
  intro s
  induction s with
  | nil => intro r h; simp [skipLine] at h
  | cons c rest ih =>
    intro r h
    by_cases hc : c = '\n'
    · simp only [skipLine, hc, if_pos] at h
      cases h
      simp
    · simp only [skipLine, hc, if_neg, ite_false] at h
      have := ih h
      simp only [List.length_cons]
      omega

theorem pfneAux_mono : ∀ f1 f2 : Nat, ∀ s : List Char, s.length < f1 → s.length < f2 →
    pfneAux f1 s = pfneAux f2 s := by
  intro f1
  induction f1 with
  | zero => intro f2 s h1 _; omega
  | succ f ih =>
    intro f2 s h1 h2
    cases f2 with
    | zero => omega
    | succ g =>
      simp only [pfneAux]
      cases hsl : skipLine s with
      | none => rfl
      | some r =>
        cases r with
        | nil => rfl
        | cons c rest =>
          have hlen := skipLine_length hsl
          simp only [List.length_cons] at hlen
          by_cases hb : isblank c
          · simp only [hb, if_true]
            exact ih g rest (by omega) (by omega)
          · simp [hb]

theorem pfne_eq (s : List Char) :
    plan_file_next_entry s =
      match skipLine s with
      | none => none
      | some [] => none
      | some (c :: rest) =>
        if isblank c then plan_file_next_entry rest else some (c :: rest) := by
  unfold plan_file_next_entry
  conv_lhs => rw [pfneAux]
  cases hsl : skipLine s with
  | none => rfl
  | some r =>
    cases r with
    | nil => rfl
    | cons c rest =>
      have hlen := skipLine_length hsl
      simp only [List.length_cons] at hlen
      by_cases hb : isblank c
      · simp only [hb, if_true]
        exact pfneAux_mono _ _ rest (by omega) (by omega)
      · simp [hb]

theorem pfne_nil : plan_file_next_entry [] = none := rfl

theorem pfne_length : ∀ s r : List Char, plan_file_next_entry s = some r → r.length < s.length := by
  have key : ∀ (n : Nat) (s : List Char), s.length ≤ n →
      ∀ r, plan_file_next_entry s = some r → r.length < s.length := by
    intro n
    induction n with
    | zero =>
      intro s hs r h
      have : s = [] := by cases s <;> simp_all
      subst this
      simp [pfne_nil] at h
    | succ n ih =>
      intro s hs r h
      rw [pfne_eq] at h
      cases hsl : skipLine s with
      | none => rw [hsl] at h; simp at h
      | some t =>
        rw [hsl] at h
        have h1 := skipLine_length hsl
        cases t with
        | nil => simp at h
        | cons c rest =>
          simp only [List.length_cons] at h1
          have h' : (if isblank c then plan_file_next_entry rest else some (c :: rest)) = some r := h
          by_cases hb : isblank c
          · rw [if_pos hb] at h'
            have := ih rest (by omega) r h'
            omega
          · rw [if_neg hb] at h'
            cases h'
            simp only [List.length_cons]
            omega
  intro s r h
  exact key s.length s (Nat.le_refl _) r h

theorem countLoopAux_mono : ∀ f1 f2 : Nat, ∀ s : List Char, s.length < f1 → s.length < f2 →
    countLoopAux f1 s = countLoopAux f2 s := by
  intro f1
  induction f1 with
  | zero => intro f2 s h1 _; omega
  | succ f ih =>
    intro f2 s h1 h2
    cases f2 with
    | zero => omega
    | succ g =>
      simp only [countLoopAux]
      cases hp : plan_file_next_entry s with
      | none => rfl
      | some r =>
        have hlen := pfne_length s r hp
        have h3 : countLoopAux f r = countLoopAux g r := ih g r (by omega) (by omega)
        show 1 + countLoopAux f r = 1 + countLoopAux g r
        rw [h3]

theorem countLoop_eq (s : List Char) :
    countLoop s =
      match plan_file_next_entry s with
      | none => 0
      | some r => 1 + countLoop r := by
  unfold countLoop
  conv_lhs => rw [countLoopAux]
  cases hp : plan_file_next_entry s with
  | none => rfl
  | some r =>
    have hlen := pfne_length s r hp
    have h3 : countLoopAux s.length r = countLoopAux (r.length + 1) r :=
      countLoopAux_mono _ _ r (by omega) (by omega)
    show 1 + countLoopAux s.length r = 1 + countLoop r
    rw [h3]
    rfl

theorem skipBlanks_length : ∀ s : List Char, (skipBlanks s).length ≤ s.length := by
  intro s
  induction s with
  | nil => simp [skipBlanks]
  | cons c rest ih =>
    by_cases hb : isblank c
    · simp only [skipBlanks, hb, if_true]
      simp only [List.length_cons]
      omega
    · simp [skipBlanks, hb]

theorem printLine_some_length : ∀ (s out r : List Char), printLine s = (out, some r) →
    r.length < s.length := by
  intro s
  induction s with
  | nil => intro out r h; simp [printLine] at h
  | cons c rest ih =>
    intro out r h
    by_cases hc : c = '\n'
    · simp only [printLine, hc, if_pos] at h
      cases h
      simp
    · simp [printLine, hc, Prod.ext_iff] at h
      have h2 := h.2
      have hrw : printLine rest = ((printLine rest).1, some r) := by
        rw [← h2]
      have := ih (printLine rest).1 r hrw
      simp only [List.length_cons]
      omega

theorem descLoopAux_mono : ∀ f1 f2 : Nat, ∀ s : List Char, s.length < f1 → s.length < f2 →
    descLoopAux f1 s = descLoopAux f2 s := by
  intro f1
  induction f1 with
  | zero => intro f2 s h1 _; omega
  | succ f ih =>
    intro f2 s h1 h2
    cases f2 with
    | zero => omega
    | succ g =>
      simp only [descLoopAux]
      cases s with
      | nil => rfl
      | cons c rest =>
        by_cases hb : isblank c
        · simp only [hb, if_true]
          cases hpl : printLine (skipBlanks rest) with
          | mk out o =>
            cases o with
            | none => rfl
            | some rest3 =>
              have hl1 := printLine_some_length (skipBlanks rest) out rest3 hpl
              have hl2 := skipBlanks_length rest
              simp only [List.length_cons] at h1 h2
              have : descLoopAux f rest3 = descLoopAux g rest3 := ih g rest3 (by omega) (by omega)
              simp only [this]
        · simp [hb]

theorem descLoop_nil : descLoop [] = ([], none) := rfl

theorem descLoop_not_blank (c : Char) (rest : List Char) (h : isblank c = false) :
    descLoop (c :: rest) = ([], some (c :: rest)) := by
  unfold descLoop
  conv_lhs => rw [descLoopAux]
  simp [h]

theorem descLoop_blank_none (c : Char) (rest out : List Char) (hb : isblank c = true)
    (hpl : printLine (skipBlanks rest) = (out, none)) :
    descLoop (c :: rest) = ('\t' :: out, none) := by
  unfold descLoop
  conv_lhs => rw [descLoopAux]
  simp only [hb, if_true, hpl]

theorem descLoop_blank_some (c : Char) (rest out rest3 : List Char) (hb : isblank c = true)
    (hpl : printLine (skipBlanks rest) = (out, some rest3)) :
    descLoop (c :: rest) = ('\t' :: (out ++ (descLoop rest3).1), (descLoop rest3).2) := by
  unfold descLoop
  conv_lhs => rw [descLoopAux]
  simp only [hb, if_true, hpl, List.length_cons]
  have hl1 := printLine_some_length (skipBlanks rest) out rest3 hpl
  have hl2 := skipBlanks_length rest
  have h3 : descLoopAux (rest.length + 1) rest3 = descLoopAux (rest3.length + 1) rest3 :=
    descLoopAux_mono _ _ rest3 (by omega) (by omega)
  rw [h3]

theorem natDigitsAux_mono : ∀ f1 f2 n : Nat, n < f1 → n < f2 →
    natDigitsAux f1 n = natDigitsAux f2 n := by
  intro f1
  induction f1 with
  | zero => intro f2 n h1 _; omega
  | succ f ih =>
    intro f2 n h1 h2
    cases f2 with
    | zero => omega
    | succ g =>
      simp only [natDigitsAux]
      by_cases hn : n < 10
      · simp only [hn, if_true]
      · simp only [hn, if_false]
        have : natDigitsAux f (n / 10) = natDigitsAux g (n / 10) := ih g (n / 10) (by omega) (by omega)
        rw [this]

theorem natDigits_eq (n : Nat) :
    natDigits n = if n < 10 then [Nat.digitChar n]
      else natDigits (n / 10) ++ [Nat.digitChar (n % 10)] := by
  unfold natDigits
  conv_lhs => rw [natDigitsAux]
  by_cases hn : n < 10
  · simp only [hn, if_true]
  · simp only [hn, if_false]
    have : natDigitsAux n (n / 10) = natDigitsAux (n / 10 + 1) (n / 10) :=
      natDigitsAux_mono _ _ (n / 10) (by omega) (by omega)
    rw [this]

/-! Clamp and the skip loop. -/

theorem clamp_mem (low val high : Int) (h : low ≤ high) :
    low ≤ clamp low val high ∧ clamp low val high ≤ high := by
  unfold clamp
  split_ifs <;> omega

theorem clamp_of_mem (low val high : Int) (h1 : low ≤ val) (h2 : val ≤ high) :
    clamp low val high = val := by
  unfold clamp
  split_ifs <;> omega

theorem skipEntries_nil : ∀ n : Nat, skipEntries n [] = [] := by
  intro n
  induction n with
  | zero => rfl
  | succ n ih => exact ih

theorem skipEntries_countLoop : ∀ (s : List Char), skipEntries (countLoop s + 1) s = [] := by
  have key : ∀ (n : Nat) (s : List Char), s.length ≤ n → skipEntries (countLoop s + 1) s = [] := by
    intro n
    induction n with
    | zero =>
      intro s h
      have hnil : s = [] := by cases s <;> simp_all
      subst hnil
      have hc : countLoop [] = 0 := by rw [countLoop_eq, pfne_nil]
      rw [hc]
      exact skipEntries_nil 1
    | succ n ih =>
      intro s h
      cases hp : plan_file_next_entry s with
      | none =>
        have hc : countLoop s = 0 := by rw [countLoop_eq, hp]
        rw [hc]
        show (match plan_file_next_entry s with
              | none => skipEntries 0 []
              | some r => skipEntries 0 r) = []
        rw [hp]
        rfl
      | some r =>
        have hlen := pfne_length s r hp
        have hc : countLoop s = 1 + countLoop r := by rw [countLoop_eq, hp]
        rw [hc]
        have h2 : 1 + countLoop r + 1 = (countLoop r + 1) + 1 := by omega
        rw [h2]
        show (match plan_file_next_entry s with
              | none => skipEntries (countLoop r + 1) []
              | some r2 => skipEntries (countLoop r + 1) r2) = []
        rw [hp]
        exact ih r (by omega)
  intro s
  exact key s.length s (Nat.le_refl _)

theorem skipLine_cons_ne (c : Char) (rest : List Char) (h : ¬ c = '\n') :
    skipLine (c :: rest) = skipLine rest := by
  simp [skipLine, h]

theorem pfne_cons_ne (c : Char) (rest : List Char) (h : ¬ c = '\n') :
    plan_file_next_entry (c :: rest) = plan_file_next_entry rest := by
  conv_lhs => rw [pfne_eq]
  conv_rhs => rw [pfne_eq]
  rw [skipLine_cons_ne c rest h]

theorem renderCalls_le : ∀ (n : Nat) (s : List Char), renderCalls n s ≤ n := by
  intro n
  induction n with
  | zero => intro s; simp [renderCalls]
  | succ n ih =>
    intro s
    show (match plan_file_print_entry s with
          | (_, none) => 1
          | (_, some r) => 1 + renderCalls n r) ≤ n + 1
    cases hp : plan_file_print_entry s with
    | mk out o =>
      cases o with
      | none =>
        show 1 ≤ n + 1
        omega
      | some r =>
        show 1 + renderCalls n r ≤ n + 1
        have := ih r
        omega

theorem renderEntries_cons_nil (n : Nat) : renderEntries (n + 1) [] = ['\n'] := rfl

/-! Structure of the rendering functions. -/

theorem printLine_append (t l : List Char) (h : '\n' ∉ t) :
    printLine (t ++ l) = (t ++ (printLine l).1, (printLine l).2) := by
  induction t with
  | nil => simp
  | cons c t ih =>
    simp only [List.mem_cons, not_or] at h
    have hc : ¬ (c = '\n') := fun e => h.1 e.symm
    have step : printLine (c :: (t ++ l)) = (c :: (printLine (t ++ l)).1, (printLine (t ++ l)).2) := by
      simp [printLine, hc]
    rw [List.cons_append, step, ih h.2]
    simp

theorem printLine_nl (rest : List Char) : printLine ('\n' :: rest) = (['\n'], some rest) := by
  simp [printLine]

theorem printLine_title (t rest : List Char) (h : '\n' ∉ t) :
    printLine (t ++ '\n' :: rest) = (t ++ ['\n'], some rest) := by
  rw [printLine_append t ('\n' :: rest) h, printLine_nl]

theorem printLine_eof (t : List Char) (h : '\n' ∉ t) :
    printLine t = (t ++ ['\n'], none) := by
  have := printLine_append t [] h
  simpa using this

theorem printLine_suffix : ∀ (s out r : List Char), printLine s = (out, some r) →
    ∃ p, s = p ++ r := by
  intro s
  induction s with
  | nil => intro out r h; simp [printLine] at h
  | cons c rest ih =>
    intro out r h
    by_cases hc : c = '\n'
    · simp only [printLine, hc, if_pos] at h
      cases h
      exact ⟨[c], rfl⟩
    · simp [printLine, hc, Prod.ext_iff] at h
      have h2 := h.2
      have hrw : printLine rest = ((printLine rest).1, some r) := by rw [← h2]
      obtain ⟨p, hp⟩ := ih (printLine rest).1 r hrw
      exact ⟨c :: p, by rw [hp]; rfl⟩

theorem printLine_ends_nl : ∀ s : List Char, ∃ t, (printLine s).1 = t ++ ['\n'] := by
  intro s
  induction s with
  | nil => exact ⟨[], rfl⟩
  | cons c rest ih =>
    by_cases hc : c = '\n'
    · exact ⟨[], by simp [printLine, hc]⟩
    · obtain ⟨t, ht⟩ := ih
      refine ⟨c :: t, ?_⟩
      simp only [printLine, hc, ite_false]
      simp [ht]

theorem skipBlanks_blank_append (ws l : List Char) (h : ∀ x ∈ ws, isblank x = true) :
    skipBlanks (ws ++ l) = skipBlanks l := by
  induction ws with
  | nil => simp
  | cons c ws ih =>
    have hc : isblank c = true := h c (List.mem_cons_self c ws)
    rw [List.cons_append]
    simp only [skipBlanks, hc, if_true]
    exact ih (fun x hx => h x (List.mem_cons_of_mem c hx))

theorem skipBlanks_head_not_blank (l : List Char)
    (h : ∀ c cs, l = c :: cs → isblank c = false) :
    skipBlanks l = l := by
  cases l with
  | nil => rfl
  | cons c cs => simp [skipBlanks, h c cs rfl]

theorem skipBlanks_suffix : ∀ s : List Char, ∃ p, s = p ++ skipBlanks s := by
  intro s
  induction s with
  | nil => exact ⟨[], rfl⟩
  | cons c rest ih =>
    by_cases hb : isblank c
    · obtain ⟨p, hp⟩ := ih
      refine ⟨c :: p, ?_⟩
      simp only [skipBlanks, hb, if_true]
      rw [List.cons_append, ← hp]
    · exact ⟨[], by simp [skipBlanks, hb]⟩

theorem descLoop_desc_line (b : Char) (ws d rest2 : List Char)
    (hb : isblank b = true) (hws : ∀ x ∈ ws, isblank x = true)
    (hd : ∀ c cs, d = c :: cs → isblank c = false) (hnl : '\n' ∉ d) :
    descLoop (b :: (ws ++ (d ++ '\n' :: rest2)))
      = ('\t' :: (d ++ '\n' :: (descLoop rest2).1), (descLoop rest2).2) := by
  have hsb : skipBlanks (ws ++ (d ++ '\n' :: rest2)) = d ++ '\n' :: rest2 := by
    rw [skipBlanks_blank_append ws _ hws]
    apply skipBlanks_head_not_blank
    intro c cs h
    cases d with
    | nil =>
      simp only [List.nil_append, List.cons.injEq] at h
      rw [← h.1]
      rfl
    | cons c0 cs0 =>
      simp only [List.cons_append, List.cons.injEq] at h
      rw [← h.1]
      exact hd c0 cs0 rfl
  have hpl : printLine (skipBlanks (ws ++ (d ++ '\n' :: rest2))) = (d ++ ['\n'], some rest2) := by
    rw [hsb]
    exact printLine_title d rest2 hnl
  rw [descLoop_blank_some b _ (d ++ ['\n']) rest2 hb hpl]
  simp

theorem descLoop_desc_eof (b : Char) (ws d : List Char)
    (hb : isblank b = true) (hws : ∀ x ∈ ws, isblank x = true)
    (hd : ∀ c cs, d = c :: cs → isblank c = false) (hnl : '\n' ∉ d) :
    descLoop (b :: (ws ++ d)) = ('\t' :: (d ++ ['\n']), none) := by
  have hsb : skipBlanks (ws ++ d) = d := by
    rw [skipBlanks_blank_append ws d hws]
    exact skipBlanks_head_not_blank d hd
  have hpl : printLine (skipBlanks (ws ++ d)) = (d ++ ['\n'], none) := by
    rw [hsb]
    exact printLine_eof d hnl
  exact descLoop_blank_none b _ (d ++ ['\n']) hb hpl

theorem descLoop_some_struct : ∀ (s r : List Char), (descLoop s).2 = some r →
    (∃ c cs, r = c :: cs ∧ isblank c = false) ∧ ∃ p, s = p ++ r := by
  have key : ∀ (n : Nat) (s : List Char), s.length ≤ n → ∀ r, (descLoop s).2 = some r →
      (∃ c cs, r = c :: cs ∧ isblank c = false) ∧ ∃ p, s = p ++ r := by
    intro n
    induction n with
    | zero =>
      intro s hlen r h
      have hnil : s = [] := by cases s <;> simp_all
      subst hnil
      rw [descLoop_nil] at h
      simp at h
    | succ n ih =>
      intro s hlen r h
      cases s with
      | nil =>
        rw [descLoop_nil] at h
        simp at h
      | cons c rest =>
        by_cases hb : isblank c
        · cases hpl : printLine (skipBlanks rest) with
          | mk out o =>
            cases o with
            | none =>
              rw [descLoop_blank_none c rest out hb hpl] at h
              simp at h
            | some rest3 =>
              rw [descLoop_blank_some c rest out rest3 hb hpl] at h
              have hl1 := printLine_some_length _ _ _ hpl
              have hl2 := skipBlanks_length rest
              simp only [List.length_cons] at hlen
              obtain ⟨hhead, p, hp⟩ := ih rest3 (by omega) r h
              refine ⟨hhead, ?_⟩
              obtain ⟨p1, hp1⟩ := skipBlanks_suffix rest
              obtain ⟨p2, hp2⟩ := printLine_suffix (skipBlanks rest) out rest3 hpl
              refine ⟨c :: (p1 ++ (p2 ++ p)), ?_⟩
              have hrest : rest = (p1 ++ (p2 ++ p)) ++ r := by
                rw [hp1, hp2, hp]
                simp [List.append_assoc]
              rw [List.cons_append, ← hrest]
        · have hb' : isblank c = false := by simpa using hb
          rw [descLoop_not_blank c rest hb'] at h
          have hr : r = c :: rest := by
            have : some (c :: rest) = some r := h
            cases this
            rfl
          subst hr
          exact ⟨⟨c, rest, rfl, hb'⟩, ⟨[], rfl⟩⟩
  intro s r h
  exact key s.length s (Nat.le_refl _) r h

theorem descLoop_ends_nl : ∀ s : List Char,
    (descLoop s).1 = [] ∨ ∃ t, (descLoop s).1 = t ++ ['\n'] := by
  have key : ∀ (n : Nat) (s : List Char), s.length ≤ n →
      (descLoop s).1 = [] ∨ ∃ t, (descLoop s).1 = t ++ ['\n'] := by
    intro n
    induction n with
    | zero =>
      intro s hlen
      have hnil : s = [] := by cases s <;> simp_all
      subst hnil
      left
      rfl
    | succ n ih =>
      intro s hlen
      cases s with
      | nil => left; rfl
      | cons c rest =>
        by_cases hb : isblank c
        · cases hpl : printLine (skipBlanks rest) with
          | mk out o =>
            have hout : ∃ t, out = t ++ ['\n'] := by
              obtain ⟨t, ht⟩ := printLine_ends_nl (skipBlanks rest)
              rw [hpl] at ht
              exact ⟨t, ht⟩
            obtain ⟨t, ht⟩ := hout
            cases o with
            | none =>
              rw [descLoop_blank_none c rest out hb hpl]
              right
              exact ⟨'\t' :: t, by rw [ht]; rfl⟩
            | some rest3 =>
              rw [descLoop_blank_some c rest out rest3 hb hpl]
              have hl1 := printLine_some_length _ _ _ hpl
              have hl2 := skipBlanks_length rest
              simp only [List.length_cons] at hlen
              right
              rcases ih rest3 (by omega) with h0 | ⟨t2, ht2⟩
              · rw [h0]
                exact ⟨'\t' :: t, by rw [ht]; simp⟩
              · rw [ht2]
                exact ⟨'\t' :: (out ++ t2), by simp⟩
        · rw [descLoop_not_blank c rest (by simpa using hb)]
          left
          rfl
  intro s
  exact key s.length s (Nat.le_refl _)

theorem pfpe_of_printLine_none (s out : List Char) (h : printLine s = (out, none)) :
    plan_file_print_entry s = (out, none) := by
  unfold plan_file_print_entry
  rw [h]

theorem pfpe_of_printLine_some (s out rest : List Char) (h : printLine s = (out, some rest)) :
    plan_file_print_entry s = (out ++ (descLoop rest).1, (descLoop rest).2) := by
  unfold plan_file_print_entry
  rw [h]

theorem pfpe_title (t rest : List Char) (h : '\n' ∉ t) :
    plan_file_print_entry (t ++ '\n' :: rest)
      = (t ++ '\n' :: (descLoop rest).1, (descLoop rest).2) := by
  rw [pfpe_of_printLine_some _ _ rest (printLine_title t rest h)]
  simp

theorem pfpe_title_eof (t : List Char) (h : '\n' ∉ t) :
    plan_file_print_entry t = (t ++ ['\n'], none) :=
  pfpe_of_printLine_none t _ (printLine_eof t h)

theorem pfpe_some_struct (s r : List Char) (h : (plan_file_print_entry s).2 = some r) :
    (∃ c cs, r = c :: cs ∧ isblank c = false) ∧ ∃ p, s = p ++ r := by
  cases hpl : printLine s with
  | mk out o =>
    cases o with
    | none =>
      rw [pfpe_of_printLine_none s out hpl] at h
      simp at h
    | some rest =>
      rw [pfpe_of_printLine_some s out rest hpl] at h
      obtain ⟨hhead, p, hp⟩ := descLoop_some_struct rest r h
      refine ⟨hhead, ?_⟩
      obtain ⟨p2, hp2⟩ := printLine_suffix s out rest hpl
      refine ⟨p2 ++ p, ?_⟩
      rw [hp2, hp]
      simp [List.append_assoc]

theorem pfpe_ends_nl (s : List Char) : ∃ t, (plan_file_print_entry s).1 = t ++ ['\n'] := by
  cases hpl : printLine s with
  | mk out o =>
    have hout : ∃ t, out = t ++ ['\n'] := by
      obtain ⟨t, ht⟩ := printLine_ends_nl s
      rw [hpl] at ht
      exact ⟨t, ht⟩
    obtain ⟨t, ht⟩ := hout
    cases o with
    | none =>
      rw [pfpe_of_printLine_none s out hpl]
      exact ⟨t, ht⟩
    | some rest =>
      rw [pfpe_of_printLine_some s out rest hpl]
      rcases descLoop_ends_nl rest with h0 | ⟨t2, ht2⟩
      · rw [h0]
        exact ⟨t, by rw [ht]; simp⟩
      · rw [ht2]
        exact ⟨out ++ t2, by simp⟩

/-! The stream position reached by show when the cursor is one past the
last entry. -/

theorem skipEntries_succ (n : Nat) (s : List Char) :
    skipEntries (n + 1) s =
      match plan_file_next_entry s with
      | none => skipEntries n []
      | some r => skipEntries n r := rfl

theorem show_end_stream (text : List Char)
    (h : text = [] ∨ ∃ c r, text = c :: r ∧ c ≠ '\n') :
    skipEntries (show_skip_calls text ((plan_count_entries text : Int) + 1)) (show_start text)
      = [] := by
  rcases h with hnil | ⟨c, r, hcr, hc⟩
  · subst hnil
    rfl
  · subst hcr
    by_cases hb : isblank c
    · have hN : plan_count_entries (c :: r) = countLoop r := by
        simp [plan_count_entries, hb]
      have hskip : show_skip_calls (c :: r) ((plan_count_entries (c :: r) : Int) + 1)
          = countLoop r + 1 := by
        rw [hN]
        simp only [show_skip_calls, hb, if_true]
        omega
      have hstart : show_start (c :: r) = r := by
        simp [show_start, hb]
      rw [hskip, hstart]
      exact skipEntries_countLoop r
    · have hb' : isblank c = false := by simpa using hb
      have hN : plan_count_entries (c :: r) = 1 + countLoop r := by
        simp [plan_count_entries, hb]
      have hskip : show_skip_calls (c :: r) ((plan_count_entries (c :: r) : Int) + 1)
          = 1 + countLoop r := by
        rw [hN]
        simp only [show_skip_calls, hb', Bool.false_eq_true, if_false]
        omega
      have hstart : show_start (c :: r) = c :: r := by
        simp [show_start, hb]
      rw [hskip, hstart]
      have hpf := pfne_cons_ne c r hc
      cases hp : plan_file_next_entry r with
      | none =>
        have hc0 : countLoop r = 0 := by rw [countLoop_eq, hp]
        rw [hc0]
        rw [show 1 + 0 = 0 + 1 from rfl, skipEntries_succ, hpf, hp]
        rfl
      | some r2 =>
        have hc1 : countLoop r = 1 + countLoop r2 := by rw [countLoop_eq, hp]
        rw [hc1]
        have he : 1 + (1 + countLoop r2) = (countLoop r2 + 1) + 1 := by omega
        rw [he, skipEntries_succ, hpf, hp]
        exact skipEntries_countLoop r2

/-! Decimal digits and the strtol characterisation. -/

theorem digitChar_toNat (d : Nat) (h : d < 10) : (Nat.digitChar d).toNat = 48 + d := by
  interval_cases d <;> rfl

theorem digitChar_isDigit (d : Nat) (h : d < 10) : (Nat.digitChar d).isDigit = true := by
  interval_cases d <;> decide

theorem natDigits_all_digit : ∀ n : Nat, ∀ c ∈ natDigits n, c.isDigit = true := by
  intro n
  induction n using Nat.strong_induction_on with
  | _ n ih =>
    rw [natDigits_eq]
    by_cases h : n < 10
    · simp only [h, if_true, List.mem_singleton]
      intro c hc
      rw [hc]
      exact digitChar_isDigit n h
    · simp only [h, if_false]
      intro c hc
      rcases List.mem_append.mp hc with h1 | h2
      · exact ih (n / 10) (by omega) c h1
      · rw [List.mem_singleton] at h2
        rw [h2]
        exact digitChar_isDigit (n % 10) (by omega)

theorem natDigits_ne_nil (n : Nat) : natDigits n ≠ [] := by
  rw [natDigits_eq]
  by_cases h : n < 10
  · simp [h]
  · simp [h]

theorem digitsVal_append_one (a : List Char) (d : Char) :
    digitsVal (a ++ [d]) = 10 * digitsVal a + ((d.toNat : Int) - 48) := by
  unfold digitsVal
  rw [List.foldl_append]
  rfl

theorem digitsVal_natDigits : ∀ n : Nat, digitsVal (natDigits n) = n := by
  intro n
  induction n using Nat.strong_induction_on with
  | _ n ih =>
    rw [natDigits_eq]
    by_cases h : n < 10
    · simp only [h, if_true]
      show 10 * 0 + (((Nat.digitChar n).toNat : Int) - 48) = n
      rw [digitChar_toNat n h]
      push_cast
      omega
    · simp only [h, if_false]
      rw [digitsVal_append_one, ih (n / 10) (by omega), digitChar_toNat (n % 10) (by omega)]
      have hsplit : 10 * (n / 10) + n % 10 = n := Nat.div_add_mod n 10
      push_cast
      omega

theorem natDigits_length_le : ∀ (k n : Nat), 1 ≤ k → n < 10 ^ k → (natDigits n).length ≤ k := by
  intro k
  induction k with
  | zero => intro n h; omega
  | succ k ih =>
    intro n _ hn
    rw [natDigits_eq]
    by_cases h : n < 10
    · simp only [h, if_true, List.length_singleton]
      omega
    · simp only [h, if_false, List.length_append, List.length_singleton]
      have hk : 1 ≤ k := by
        by_contra hk0
        have hz : k = 0 := by omega
        subst hz
        simp at hn
        omega
      have hdiv : n / 10 < 10 ^ k := by
        have hmul : n < 10 * 10 ^ k := by
          have : (10 : Nat) ^ (k + 1) = 10 * 10 ^ k := by ring
          omega
        generalize 10 ^ k = m at hmul ⊢
        omega
      have := ih (n / 10) hk hdiv
      omega

theorem isDigit_ne_key_chars (c : Char) (h : c.isDigit = true) :
    c ≠ ' ' ∧ c ≠ '\t' ∧ c ≠ '\n' ∧ c ≠ '\x0b' ∧ c ≠ '\x0c' ∧ c ≠ '\r'
      ∧ c ≠ '\x00' ∧ c ≠ '-' ∧ c ≠ '+' := by
  refine ⟨?_, ?_, ?_, ?_, ?_, ?_, ?_, ?_, ?_⟩ <;>
    (intro e; subst e; exact absurd h (by decide))

theorem isDigit_not_isspace (c : Char) (h : c.isDigit = true) : isspace c = false := by
  obtain ⟨h1, h2, h3, h4, h5, h6, _, _, _⟩ := isDigit_ne_key_chars c h
  simp [isspace, h1, h2, h3, h4, h5, h6]

theorem strtolDigits_eq : ∀ (l : List Char) (acc : Int),
    strtolDigits l acc =
      ((l.takeWhile Char.isDigit).foldl (fun a c => 10 * a + ((c.toNat : Int) - 48)) acc,
       l.dropWhile Char.isDigit) := by
  intro l
  induction l with
  | nil => intro acc; simp [strtolDigits]
  | cons c rest ih =>
    intro acc
    by_cases hd : c.isDigit
    · simp [strtolDigits, hd, List.takeWhile_cons, List.dropWhile_cons, ih]
    · simp [strtolDigits, hd, List.takeWhile_cons, List.dropWhile_cons]

theorem strtolDigits_run_iff (u : List Char) (v : Int) :
    strtolDigits u 0 = (v, []) ↔ ((∀ x ∈ u, x.isDigit = true) ∧ digitsVal u = v) := by
  rw [strtolDigits_eq, Prod.ext_iff]
  dsimp only
  constructor
  · rintro ⟨h1, h2⟩
    have hall : ∀ x ∈ u, x.isDigit = true := List.dropWhile_eq_nil_iff.mp h2
    have htake : u.takeWhile Char.isDigit = u := List.takeWhile_eq_self_iff.mpr hall
    refine ⟨hall, ?_⟩
    rw [← h1, htake]
    rfl
  · rintro ⟨hall, hval⟩
    have htake : u.takeWhile Char.isDigit = u := List.takeWhile_eq_self_iff.mpr hall
    refine ⟨?_, List.dropWhile_eq_nil_iff.mpr hall⟩
    rw [htake, ← hval]
    rfl

theorem strtol10_ok_iff (s : List Char) (hs : s ≠ []) (v : Int) :
    strtol10 s = (v, []) ↔
      (spec_accepted_content s = true ∧ spec_content_value s = v) := by
  unfold strtol10 spec_accepted_content spec_content_value
  cases ht : s.dropWhile isspace with
  | nil =>
    dsimp only
    constructor
    · intro h
      rw [Prod.ext_iff] at h
      exact absurd h.2 hs
    · rintro ⟨h1, _⟩
      simp at h1
  | cons c r =>
    dsimp only
    by_cases hm : c = '-'
    · subst hm
      rw [if_pos rfl, if_pos (Or.inl rfl), if_pos rfl]
      cases r with
      | nil =>
        dsimp only
        constructor
        · intro h
          rw [Prod.ext_iff] at h
          exact absurd h.2 hs
        · rintro ⟨h1, _⟩
          simp at h1
      | cons d r2 =>
        dsimp only
        by_cases hd : d.isDigit
        · rw [if_pos hd]
          constructor
          · intro h
            rw [Prod.ext_iff] at h
            dsimp only at h
            have hrun : strtolDigits (d :: r2) 0 = ((strtolDigits (d :: r2) 0).1, []) := by
              rw [← h.2]
            have hch := (strtolDigits_run_iff (d :: r2) (strtolDigits (d :: r2) 0).1).mp hrun
            refine ⟨?_, ?_⟩
            · simp only [List.isEmpty_cons, Bool.not_false, Bool.true_and]
              exact List.all_eq_true.mpr hch.1
            · rw [← h.1, hch.2]
          · rintro ⟨h1, h2⟩
            simp only [List.isEmpty_cons, Bool.not_false, Bool.true_and] at h1
            have hall := List.all_eq_true.mp h1
            have hrun := (strtolDigits_run_iff (d :: r2) (digitsVal (d :: r2))).mpr ⟨hall, rfl⟩
            rw [hrun]
            rw [Prod.ext_iff]
            dsimp only
            exact ⟨h2, rfl⟩
        · rw [if_neg hd]
          constructor
          · intro h
            rw [Prod.ext_iff] at h
            exact absurd h.2 hs
          · rintro ⟨h1, _⟩
            exfalso
            simp only [List.isEmpty_cons, Bool.not_false, Bool.true_and] at h1
            exact hd (List.all_eq_true.mp h1 d (List.mem_cons_self d r2))
    · by_cases hp : c = '+'
      · subst hp
        rw [if_neg hm, if_pos rfl, if_pos (Or.inr rfl), if_neg hm, if_pos rfl]
        cases r with
        | nil =>
          dsimp only
          constructor
          · intro h
            rw [Prod.ext_iff] at h
            exact absurd h.2 hs
          · rintro ⟨h1, _⟩
            simp at h1
        | cons d r2 =>
          dsimp only
          by_cases hd : d.isDigit
          · rw [if_pos hd]
            rw [strtolDigits_run_iff (d :: r2) v]
            simp only [List.isEmpty_cons, Bool.not_false, Bool.true_and]
            constructor
            · rintro ⟨hall, hval⟩
              exact ⟨List.all_eq_true.mpr hall, hval⟩
            · rintro ⟨h1, h2⟩
              exact ⟨List.all_eq_true.mp h1, h2⟩
          · rw [if_neg hd]
            constructor
            · intro h
              rw [Prod.ext_iff] at h
              exact absurd h.2 hs
            · rintro ⟨h1, _⟩
              exfalso
              simp only [List.isEmpty_cons, Bool.not_false, Bool.true_and] at h1
              exact hd (List.all_eq_true.mp h1 d (List.mem_cons_self d r2))
      · rw [if_neg hm, if_neg hp, if_neg (by tauto : ¬(c = '-' ∨ c = '+')), if_neg hm, if_neg hp]
        by_cases hd : c.isDigit
        · rw [if_pos hd]
          rw [strtolDigits_run_iff (c :: r) v]
          constructor
          · rintro ⟨hall, hval⟩
            exact ⟨List.all_eq_true.mpr hall, hval⟩
          · rintro ⟨h1, h2⟩
            exact ⟨List.all_eq_true.mp h1, h2⟩
        · rw [if_neg hd]
          constructor
          · intro h
            rw [Prod.ext_iff] at h
            exact absurd h.2 hs
          · rintro ⟨h1, _⟩
            exfalso
            exact hd (List.all_eq_true.mp h1 c (List.mem_cons_self c r))

theorem parse_int_ok_iff (str : List Char) (v : Int) :
    parse_int str = .ok v ↔
      (spec_accepted_content str = true ∧ spec_content_value str = v
        ∧ int_min ≤ v ∧ v ≤ int_max) := by
  unfold parse_int
  by_cases hnil : str = []
  · subst hnil
    rw [if_pos rfl]
    constructor
    · intro h
      simp at h
    · rintro ⟨h1, _⟩
      simp [spec_accepted_content] at h1
  · rw [if_neg hnil]
    by_cases hend : (strtol10 str).2 = []
    · rw [if_neg (by simpa using hend)]
      have hpair : strtol10 str = ((strtol10 str).1, []) := by
        rw [← hend]
      have hacc := (strtol10_ok_iff str hnil (strtol10 str).1).mp hpair
      by_cases hrange : (strtol10 str).1 < int_min ∨ (strtol10 str).1 > int_max
      · rw [if_pos hrange]
        constructor
        · intro h
          simp at h
        · rintro ⟨_, h2, h3, h4⟩
          rw [hacc.2] at h2
          omega
      · rw [if_neg hrange]
        constructor
        · intro h
          have hv : (strtol10 str).1 = v := by
            exact Except.ok.inj h
          subst hv
          exact ⟨hacc.1, hacc.2, by omega, by omega⟩
        · rintro ⟨_, h2, _, _⟩
          rw [hacc.2] at h2
          rw [h2]
    · constructor
      · intro h
        rw [if_pos (by simpa using hend)] at h
        simp at h
      · rintro ⟨h1, h2, _, _⟩
        exfalso
        have := (strtol10_ok_iff str hnil v).mpr ⟨h1, h2⟩
        rw [this] at hend
        simp at hend

theorem plan_get_entry_ok_iff (content : List Char) (v : Int) :
    plan_get_entry content = .ok v ↔
      (content.length ≤ 30
        ∧ spec_accepted_content (status_cstr content) = true
        ∧ spec_content_value (status_cstr content) = v
        ∧ int_min ≤ v ∧ v ≤ int_max) := by
  unfold plan_get_entry
  by_cases hlen : 31 ≤ content.length
  · rw [if_pos hlen]
    constructor
    · intro h
      simp at h
    · rintro ⟨h1, _⟩
      omega
  · rw [if_neg hlen]
    have h30 : content.length ≤ 30 := by omega
    cases hp : parse_int (status_cstr content) with
    | error e =>
      constructor
      · intro h
        simp at h
      · rintro ⟨_, h2, h3, h4, h5⟩
        have := (parse_int_ok_iff (status_cstr content) v).mpr ⟨h2, h3, h4, h5⟩
        rw [hp] at this
        simp at this
    | ok w =>
      have hw := (parse_int_ok_iff (status_cstr content) w).mp hp
      constructor
      · intro h
        have hv : w = v := Except.ok.inj h
        subst hv
        exact ⟨h30, hw.1, hw.2.1, hw.2.2.1, hw.2.2.2⟩
      · rintro ⟨_, _, h3, _, _⟩
        rw [hw.2.1] at h3
        rw [h3]

/-! The decimal writer produces an accepted status string. -/

theorem int_to_dec_spec (v : Int) (h1 : int_min ≤ v) (h2 : v ≤ int_max) :
    status_cstr (int_to_dec v) = int_to_dec v
  ∧ (int_to_dec v).length ≤ 30
  ∧ spec_accepted_content (int_to_dec v) = true
  ∧ spec_content_value (int_to_dec v) = v
  ∧ (∀ c ∈ int_to_dec v, isspace c = false) := by
  have h1' : (-2147483648 : Int) ≤ v := h1
  have h2' : v ≤ (2147483647 : Int) := h2
  have hbound : ∀ m : Nat, m ≤ 2147483648 → (natDigits m).length ≤ 10 := by
    intro m hm
    exact natDigits_length_le 10 m (by omega) (by omega)
  by_cases hneg : v < 0
  · have hdef : int_to_dec v = '-' :: natDigits (-v).toNat := by
      unfold int_to_dec
      rw [if_pos hneg]
    obtain ⟨d, ds, hds⟩ : ∃ d ds, natDigits (-v).toNat = d :: ds := by
      cases hnd : natDigits (-v).toNat with
      | nil => exact absurd hnd (natDigits_ne_nil _)
      | cons d ds => exact ⟨d, ds, rfl⟩
    have hall := natDigits_all_digit (-v).toNat
    have hnospace : ∀ c ∈ int_to_dec v, isspace c = false := by
      intro c hc
      rw [hdef] at hc
      rcases List.mem_cons.mp hc with hc1 | hc2
      · rw [hc1]
        decide
      · exact isDigit_not_isspace c (hall c hc2)
    have hnonul : ∀ c ∈ int_to_dec v, c ≠ '\x00' := by
      intro c hc
      rw [hdef] at hc
      rcases List.mem_cons.mp hc with hc1 | hc2
      · rw [hc1]
        decide
      · exact (isDigit_ne_key_chars c (hall c hc2)).2.2.2.2.2.2.1
    have hdrop : (int_to_dec v).dropWhile isspace = int_to_dec v := by
      rw [hdef]
      rw [List.dropWhile_cons]
      rw [if_neg (by simp [isspace])]
    have hvalnat : ((-v).toNat : Int) = -v := by omega
    refine ⟨?_, ?_, ?_, ?_, hnospace⟩
    · unfold status_cstr
      exact List.takeWhile_eq_self_iff.mpr (fun x hx => decide_eq_true (hnonul x hx))
    · rw [hdef]
      simp only [List.length_cons]
      have := hbound (-v).toNat (by omega)
      omega
    · unfold spec_accepted_content
      rw [hdrop, hdef, hds]
      dsimp only
      rw [if_pos (Or.inl rfl)]
      simp only [List.isEmpty_cons, Bool.not_false, Bool.true_and]
      apply List.all_eq_true.mpr
      intro x hx
      apply hall
      rw [hds]
      exact hx
    · unfold spec_content_value
      rw [hdrop, hdef, hds]
      dsimp only
      rw [if_pos rfl]
      rw [← hds, digitsVal_natDigits]
      omega
  · have hdef : int_to_dec v = natDigits v.toNat := by
      unfold int_to_dec
      rw [if_neg hneg]
    obtain ⟨d, ds, hds⟩ : ∃ d ds, natDigits v.toNat = d :: ds := by
      cases hnd : natDigits v.toNat with
      | nil => exact absurd hnd (natDigits_ne_nil _)
      | cons d ds => exact ⟨d, ds, rfl⟩
    have hall := natDigits_all_digit v.toNat
    have hd : d.isDigit = true := by
      apply hall
      rw [hds]
      exact List.mem_cons_self d ds
    have hnospace : ∀ c ∈ int_to_dec v, isspace c = false := by
      intro c hc
      rw [hdef] at hc
      exact isDigit_not_isspace c (hall c hc)
    have hnonul : ∀ c ∈ int_to_dec v, c ≠ '\x00' := by
      intro c hc
      rw [hdef] at hc
      exact (isDigit_ne_key_chars c (hall c hc)).2.2.2.2.2.2.1
    have hdrop : (int_to_dec v).dropWhile isspace = int_to_dec v := by
      rw [hdef, hds]
      rw [List.dropWhile_cons]
      rw [if_neg (by rw [isDigit_not_isspace d hd]; simp)]
    have hvalnat : (v.toNat : Int) = v := by omega
    refine ⟨?_, ?_, ?_, ?_, hnospace⟩
    · unfold status_cstr
      exact List.takeWhile_eq_self_iff.mpr (fun x hx => decide_eq_true (hnonul x hx))
    · rw [hdef]
      have := hbound v.toNat (by omega)
      omega
    · unfold spec_accepted_content
      rw [hdrop, hdef, hds]
      dsimp only
      rw [if_neg (by
        have hnm := (isDigit_ne_key_chars d hd).2.2.2.2.2.2.2
        exact fun h => h.elim hnm.1 hnm.2)]
      apply List.all_eq_true.mpr
      intro x hx
      apply hall
      rw [hds]
      exact hx
    · unfold spec_content_value
      rw [hdrop, hdef, hds]
      dsimp only
      have hnm := (isDigit_ne_key_chars d hd).2.2.2.2.2.2.2
      rw [if_neg hnm.1, if_neg hnm.2]
      rw [← hds, digitsVal_natDigits]
      omega

theorem get_set_roundtrip (v : Int) (h1 : int_min ≤ v) (h2 : v ≤ int_max) :
    plan_get_entry (plan_set_entry v) = .ok v := by
  obtain ⟨hcstr, hlen, hacc, hval, _⟩ := int_to_dec_spec v h1 h2
  rw [plan_get_entry_ok_iff]
  refine ⟨hlen, ?_, ?_, h1, h2⟩
  · show spec_accepted_content (status_cstr (int_to_dec v)) = true
    rw [hcstr]
    exact hacc
  · show spec_content_value (status_cstr (int_to_dec v)) = v
    rw [hcstr]
    exact hval

/-! Claim theorems. -/

/-- C1: for every plan text and every starting cursor value and every
integer target, the cursor value written by next (cursor plus one),
previous (cursor minus one) and set (the target) always lies in the
inclusive range from 1 to the entry count plus one; next applied at the
one-past-the-end cursor leaves it there, and previous applied at cursor
1 leaves it at 1. -/
theorem c1_cursor_clamped (text : List Char) (entry target : Int) :
    (1 ≤ next_value text entry ∧ next_value text entry ≤ (plan_count_entries text : Int) + 1)
  ∧ (1 ≤ previous_value text entry
      ∧ previous_value text entry ≤ (plan_count_entries text : Int) + 1)
  ∧ (1 ≤ set_value text target ∧ set_value text target ≤ (plan_count_entries text : Int) + 1)
  ∧ next_value text ((plan_count_entries text : Int) + 1) = (plan_count_entries text : Int) + 1
  ∧ previous_value text 1 = 1 := by
  have hN : (0 : Int) ≤ (plan_count_entries text : Int) := Int.natCast_nonneg _
  refine ⟨clamp_mem 1 (entry + 1) _ (by omega), clamp_mem 1 (entry - 1) _ (by omega),
    clamp_mem 1 target _ (by omega), ?_, ?_⟩
  · unfold next_value clamp
    split_ifs <;> omega
  · unfold previous_value clamp
    split_ifs <;> omega

/-- C2 counterexample: with cursor value 0 stored and a plan text that
starts on a title line, the skip loop of show runs zero times, not the
minus-one times the claim would require for cursor 0; the claim as
stated over every cursor value is therefore false. -/
theorem c2_skip_count_counterexample :
    show_skip_calls ('a' :: '\n' :: []) 0 = 0
  ∧ ¬ ((show_skip_calls ('a' :: '\n' :: []) 0 : Int) = 0 - 1) := by
  decide

/-- C2 (amended: the skip counts hold for cursor values of at least 1;
for smaller values the C for loop clamps the trip count at zero): show
classifies the first byte; when the text is empty or starts with a
non-whitespace byte the byte is pushed back, the stream is unchanged and
exactly cursor minus one skip calls are made; when the first byte is
horizontal whitespace it stays consumed and exactly cursor skip calls
are made; afterwards the render loop runs at most count times, stopping
early when render reports no more entries. -/
theorem c2_show_skip_structure (text : List Char) (c num : Int) (h : 1 ≤ c) :
    ((text = [] ∨ ∃ d rest, text = d :: rest ∧ isblank d = false) →
      (show_skip_calls text c : Int) = c - 1 ∧ show_start text = text)
  ∧ (∀ (d : Char) (rest : List Char), text = d :: rest → isblank d = true →
      (show_skip_calls text c : Int) = c ∧ show_start text = rest)
  ∧ show_output text c num
      = renderEntries num.toNat (skipEntries (show_skip_calls text c) (show_start text))
  ∧ renderCalls num.toNat (skipEntries (show_skip_calls text c) (show_start text))
      ≤ num.toNat := by
  refine ⟨?_, ?_, rfl, renderCalls_le _ _⟩
  · intro hcase
    rcases hcase with hnil | ⟨d, rest, hdr, hd⟩
    · subst hnil
      refine ⟨?_, rfl⟩
      show (((c - 1).toNat : Int)) = c - 1
      omega
    · subst hdr
      constructor
      · simp only [show_skip_calls, hd, Bool.false_eq_true, if_false]
        omega
      · simp [show_start, hd]
  · intro d rest hdr hd
    subst hdr
    constructor
    · simp only [show_skip_calls, hd, if_true]
      omega
    · simp [show_start, hd]

/-- C2 witness: a title-start text with cursor 1 makes zero skip calls
and leaves the stream unchanged. -/
theorem c2_witness :
    (show_skip_calls ('a' :: []) 1 : Int) = 1 - 1 ∧ show_start ('a' :: []) = 'a' :: [] :=
  (c2_show_skip_structure ('a' :: []) 1 1 (by decide)).1
    (Or.inr ⟨'a', [], rfl, by decide⟩)

/-- C3 counterexample: the content made of a space followed by the digit
1 is not precisely one base-10 integer, yet reading the cursor accepts
it and returns 1, because strtol skips leading whitespace; the claimed
equivalence is therefore false. -/
theorem c3_leading_space_counterexample :
    spec_clean_int (' ' :: '1' :: []) = false
  ∧ plan_get_entry (' ' :: '1' :: []) = Except.ok 1 := by
  decide

/-- C3 (amended: reading the cursor succeeds exactly on contents of at
most 30 bytes whose characters up to the first NUL byte are optional
leading whitespace, an optional sign and one or more decimal digits
with nothing after them, with value inside the 32-bit int range; any
trailing or otherwise invalid character, any content of 31 bytes or
more, and any out-of-range value is rejected as corrupt, but leading
whitespace and a plus sign are tolerated rather than rejected). -/
theorem c3_read_cursor_iff (content : List Char) (v : Int) :
    plan_get_entry content = .ok v ↔
      (content.length ≤ 30
        ∧ spec_accepted_content (status_cstr content) = true
        ∧ spec_content_value (status_cstr content) = v
        ∧ int_min ≤ v ∧ v ≤ int_max) :=
  plan_get_entry_ok_iff content v

/-- C4: counting entries returns 0 on the empty text; on a text whose
first byte is not horizontal whitespace it counts the initial entry
plus one per successful skip call; on a text whose first byte is
horizontal whitespace the initial content is not counted and counting
is just the skip loop, so leading content before the first title line is
silently not counted (the final conjunct shows a leading garbage line
changing nothing). -/
theorem c4_count_entries :
    plan_count_entries [] = 0
  ∧ (∀ (c : Char) (rest : List Char), isblank c = false →
      plan_count_entries (c :: rest) = 1 + countLoop rest)
  ∧ (∀ (c : Char) (rest : List Char), isblank c = true →
      plan_count_entries (c :: rest) = countLoop rest)
  ∧ (∀ s : List Char, countLoop s =
      match plan_file_next_entry s with
      | none => 0
      | some r => 1 + countLoop r)
  ∧ plan_count_entries (' ' :: 'x' :: '\n' :: 'T' :: '\n' :: [])
      = plan_count_entries ('T' :: '\n' :: []) := by
  refine ⟨rfl, ?_, ?_, countLoop_eq, by decide⟩
  · intro c rest h
    simp [plan_count_entries, h]
  · intro c rest h
    simp [plan_count_entries, h]

/-- C4 witness: a text starting with a blank byte is counted by the skip
loop alone. -/
theorem c4_witness : plan_count_entries (' ' :: 'T' :: []) = countLoop ('T' :: []) :=
  c4_count_entries.2.2.1 ' ' ('T' :: []) (by decide)

/-- C5: render writes the title line verbatim followed by its newline;
at end of stream the title gets a forced trailing newline and the
no-more-entries result; every description line (a line whose first byte
is horizontal whitespace) is written with its whole leading whitespace
run replaced by a single tab, with a forced newline at end of stream;
the no-more-entries result is produced exactly at end of stream,
otherwise the stream is left at the first byte of the next title line
(a non-whitespace byte, at a suffix of the input); and the output always
ends with a newline. -/
theorem c5_render_entry :
    (∀ t rest : List Char, '\n' ∉ t →
      plan_file_print_entry (t ++ '\n' :: rest)
        = (t ++ '\n' :: (descLoop rest).1, (descLoop rest).2))
  ∧ (∀ t : List Char, '\n' ∉ t → plan_file_print_entry t = (t ++ ['\n'], none))
  ∧ (∀ (b : Char) (ws d rest2 : List Char), isblank b = true →
      (∀ x ∈ ws, isblank x = true) →
      (∀ c cs, d = c :: cs → isblank c = false) → '\n' ∉ d →
      descLoop (b :: (ws ++ (d ++ '\n' :: rest2)))
          = ('\t' :: (d ++ '\n' :: (descLoop rest2).1), (descLoop rest2).2)
        ∧ descLoop (b :: (ws ++ d)) = ('\t' :: (d ++ ['\n']), none))
  ∧ (∀ s r : List Char, (plan_file_print_entry s).2 = some r →
      (∃ c cs, r = c :: cs ∧ isblank c = false) ∧ ∃ p, s = p ++ r)
  ∧ (∀ s : List Char, ∃ t, (plan_file_print_entry s).1 = t ++ ['\n']) :=
  ⟨pfpe_title, pfpe_title_eof,
   fun b ws d rest2 hb hws hd hnl =>
     ⟨descLoop_desc_line b ws d rest2 hb hws hd hnl, descLoop_desc_eof b ws d hb hws hd hnl⟩,
   pfpe_some_struct, pfpe_ends_nl⟩

/-- C5 witness: a one-character title at end of stream is printed with a
forced newline and the no-more-entries result. -/
theorem c5_witness : plan_file_print_entry ('T' :: []) = ('T' :: [] ++ ['\n'], none) :=
  c5_render_entry.2.1 ('T' :: []) (by decide)

/-- C6 counterexample: on the empty plan text the entry count is 0 and
the cursor 1 is one past the end, yet show with count 1 writes a single
newline character to standard output, not nothing; the claim as stated
is therefore false. -/
theorem c6_end_counterexample :
    plan_count_entries [] = 0
  ∧ show_output [] ((0 : Int) + 1) 1 = '\n' :: []
  ∧ show_output [] ((0 : Int) + 1) 1 ≠ [] := by
  decide

/-- C6 (amended: for a plan text that is empty or does not start with a
newline byte, show at cursor one past the entry count writes exactly one
newline character when count is positive, the forced trailing newline
the renderer emits at end of stream, and nothing when count is not
positive; it never writes entry content). -/
theorem c6_end_of_plan (text : List Char) (num : Int)
    (h : text = [] ∨ ∃ c r, text = c :: r ∧ c ≠ '\n') :
    show_output text ((plan_count_entries text : Int) + 1) num
      = if 1 ≤ num then '\n' :: [] else [] := by
  unfold show_output
  rw [show_end_stream text h]
  by_cases hn : 1 ≤ num
  · rw [if_pos hn]
    have hτ : num.toNat = (num.toNat - 1) + 1 := by omega
    rw [hτ, renderEntries_cons_nil]
  · rw [if_neg hn]
    have hτ : num.toNat = 0 := by omega
    rw [hτ]
    rfl

/-- C6 witness: a one-entry plan shown at cursor 2 with count 1 yields
only the forced newline. -/
theorem c6_witness :
    show_output ('a' :: []) ((plan_count_entries ('a' :: []) : Int) + 1) 1
      = if (1 : Int) ≤ 1 then '\n' :: [] else [] :=
  c6_end_of_plan ('a' :: []) 1 (Or.inr ⟨'a', [], rfl, by decide⟩)

/-- C7: writing any int-representable cursor value and reading it back
yields exactly that value, and the stored representation contains no
whitespace character at all (so no surrounding whitespace and no
trailing newline). -/
theorem c7_cursor_roundtrip (v : Int) (h1 : -2147483648 ≤ v) (h2 : v ≤ 2147483647) :
    plan_get_entry (plan_set_entry v) = .ok v
  ∧ ∀ c ∈ plan_set_entry v, isspace c = false := by
  refine ⟨get_set_roundtrip v h1 h2, ?_⟩
  exact (int_to_dec_spec v h1 h2).2.2.2.2

/-- C7 witness: the round trip at the concrete value minus 42. -/
theorem c7_witness : plan_get_entry (plan_set_entry (-42)) = Except.ok (-42) :=
  (c7_cursor_roundtrip (-42) (by decide) (by decide)).1

/-- C8 counterexample: with the malformed cursor content 12x, the jump
operation (set) does not fail with a corrupt-status error before
writing: it never reads the cursor artifact, and it overwrites the
malformed content with the clamped target; the claim that every
navigation operation fails before writing is therefore false. -/
theorem c8_jump_counterexample :
    plan_get_entry ('1' :: '2' :: 'x' :: []) = Except.error StatusErr.badNumber
  ∧ set_op ⟨'A' :: '\n' :: [], '1' :: '2' :: 'x' :: []⟩ 5
      = ⟨'A' :: '\n' :: [], '2' :: []⟩
  ∧ (set_op ⟨'A' :: '\n' :: [], '1' :: '2' :: 'x' :: []⟩ 5).status
      ≠ '1' :: '2' :: 'x' :: [] := by
  refine ⟨rfl, rfl, by decide⟩

/-- C8 (amended: advance and retreat read the cursor first and fail with
the corrupt-status error before writing anything when the artifact is
malformed; jump, by contrast, never reads the cursor artifact, so it
cannot fail on malformed content and writes the clamped target
regardless of the previous status content). -/
theorem c8_nav_error_before_write (st : PlanState) (e : StatusErr) (target : Int)
    (h : plan_get_entry st.status = .error e) :
    next_op st = .error e
  ∧ previous_op st = .error e
  ∧ ∀ other : List Char, set_op st target = set_op ⟨st.text, other⟩ target := by
  refine ⟨?_, ?_, fun other => rfl⟩
  · unfold next_op
    rw [h]
  · unfold previous_op
    rw [h]

/-- C8 witness: advance on the malformed content 12x fails with the
corrupt-status error. -/
theorem c8_witness :
    next_op ⟨'A' :: '\n' :: [], '1' :: '2' :: 'x' :: []⟩
      = Except.error StatusErr.badNumber :=
  (c8_nav_error_before_write ⟨'A' :: '\n' :: [], '1' :: '2' :: 'x' :: []⟩
    StatusErr.badNumber 5 (by decide)).1

/-- C9: whenever show succeeds it returns the plan state it was given:
the cursor artifact (and the plan text) is read but never written. -/
theorem c9_show_no_mutation (st : PlanState) (num : Int) (out : List Char) (st2 : PlanState)
    (h : show_op st num = .ok (out, st2)) :
    st2.status = st.status ∧ st2 = st := by
  unfold show_op at h
  cases hg : plan_get_entry st.status with
  | error e =>
    rw [hg] at h
    simp at h
  | ok v =>
    rw [hg] at h
    have h2 : (show_output st.text v num, st) = (out, st2) := Except.ok.inj h
    rw [Prod.ext_iff] at h2
    dsimp only at h2
    exact ⟨by rw [← h2.2], by rw [← h2.2]⟩

/-- C9 witness: a concrete successful show leaves the state unchanged. -/
theorem c9_witness :
    ((⟨'A' :: '\n' :: [], '1' :: []⟩ : PlanState)).status
        = ((⟨'A' :: '\n' :: [], '1' :: []⟩ : PlanState)).status
  ∧ (⟨'A' :: '\n' :: [], '1' :: []⟩ : PlanState)
      = ⟨'A' :: '\n' :: [], '1' :: []⟩ :=
  c9_show_no_mutation ⟨'A' :: '\n' :: [], '1' :: []⟩ 1 ('A' :: '\n' :: [])
    ⟨'A' :: '\n' :: [], '1' :: []⟩ (by decide)

/-- C10: reading the cursor does no range validation: every stored
int-representable value, including 0, negative values and values far
beyond the entry count, is returned exactly as stored; advance then
clamps the value into range only when it writes, and show hands the
raw value straight to its skip computation. -/
theorem c10_raw_cursor_value (text : List Char) (v num : Int)
    (h1 : -2147483648 ≤ v) (h2 : v ≤ 2147483647) :
    plan_get_entry (int_to_dec v) = .ok v
  ∧ next_op ⟨text, int_to_dec v⟩
      = .ok ⟨text, plan_set_entry (clamp 1 (v + 1) ((plan_count_entries text : Int) + 1))⟩
  ∧ show_op ⟨text, int_to_dec v⟩ num
      = .ok (show_output text v num, ⟨text, int_to_dec v⟩) := by
  have hget : plan_get_entry (int_to_dec v) = .ok v := get_set_roundtrip v h1 h2
  refine ⟨hget, ?_, ?_⟩
  · unfold next_op
    dsimp only
    rw [hget]
    rfl
  · unfold show_op
    dsimp only
    rw [hget]

/-- C10 witness: the out-of-range stored value 999999 is read back as
is on a one-entry plan. -/
theorem c10_witness : plan_get_entry (int_to_dec 999999) = Except.ok 999999 :=
  (c10_raw_cursor_value ('A' :: '\n' :: []) 999999 1 (by decide) (by decide)).1

end Reading
